import Mathlib

/-!
Verification of the dailyhex scoreboard parser
(`hex_scoreboard_parser.py`): a shallow embedding of the color codec,
the scoreboard extractor and the Wordle-style guess evaluator, together
with theorems settling the specification claims.

Strings are modelled as `List Char`; Python sets of characters as
`Finset Char`; functions that may raise in Python return `Option`.
-/

/-- The four per-position outcomes of the guess evaluator.  In the Python
source these are rendered as ANSI wrappings of the digit: green = Correct,
yellow = Present, red = Eliminated, no styling = Unclassified. -/
inductive Classification where
  | Correct
  | Present
  | Eliminated
  | Unclassified
deriving DecidableEq, Repr

/-- A position of the guess during evaluation: either already finalized
with a classification (`result[i]` set, `guess_chars[i] = None` in the
source) or still carrying its digit for later passes. -/
inductive Slot where
  | done (c : Char) (cl : Classification)
  | active (c : Char)
deriving DecidableEq, Repr

/-- Model of `s.lstrip("#")` in the source: drop all leading `#` characters. -/
def stripHash (s : List Char) : List Char := s.dropWhile (fun c => c == '#')

/-- Model of `s.lstrip("#").upper()` in the source (per-character uppercasing). -/
def normalizeColor (s : List Char) : List Char := (stripHash s).map Char.toUpper

/-- First pass of `evaluate_guess`: digits found in `impossible_digits`
are classified Eliminated and excluded from the later passes. -/
def pass1 (elim : Finset Char) (g : List Char) : List Slot :=
  g.map (fun c => if c ∈ elim then Slot.done c Classification.Eliminated else Slot.active c)

/-- Second pass of `evaluate_guess`: a still-active digit equal to the
solution digit at the same position is classified Correct and both are
consumed.  Returns the updated slots and the solution with consumed
positions replaced by `none`. -/
def pass2 : List Slot → List Char → List Slot × List (Option Char)
  | [], sol => ([], sol.map some)
  | s :: slots, [] => (s :: slots, [])
  | Slot.active g :: slots, c :: sol =>
    let r := pass2 slots sol
    if g = c then (Slot.done g Classification.Correct :: r.1, none :: r.2)
    else (Slot.active g :: r.1, some c :: r.2)
  | Slot.done g cl :: slots, c :: sol =>
    let r := pass2 slots sol
    (Slot.done g cl :: r.1, some c :: r.2)

/-- Model of `solution_chars.index(char)` followed by `solution_chars[idx] = None`
of the source: consume the first not-yet-consumed occurrence of `d`,
or fail when none remains. -/
def consume : List (Option Char) → Char → Option (List (Option Char))
  | [], _ => none
  | some c :: rest, d =>
    if c = d then some (none :: rest)
    else (consume rest d).map (fun r => some c :: r)
  | none :: rest, d => (consume rest d).map (fun r => none :: r)

/-- Third pass of `evaluate_guess`: a still-active digit that occurs among
the not-yet-consumed solution digits is classified Present (consuming the
first remaining occurrence), otherwise Unclassified. -/
def pass3 : List Slot → List (Option Char) → List (Char × Classification)
  | [], _ => []
  | Slot.done c cl :: slots, sol => (c, cl) :: pass3 slots sol
  | Slot.active c :: slots, sol =>
    match consume sol c with
    | some sol2 => (c, Classification.Present) :: pass3 slots sol2
    | none => (c, Classification.Unclassified) :: pass3 slots sol

/-- Model of `evaluate_guess(guess, solution, impossible_digits)` in the source:
normalize both strings, return the guess unclassified when either does not
have exactly 6 characters, otherwise run the three passes. -/
def evaluate_guess (guess solution : List Char) (elim : Finset Char) :
    List (Char × Classification) :=
  let g := normalizeColor guess
  let s := normalizeColor solution
  if g.length ≠ 6 ∨ s.length ≠ 6 then
    g.map (fun c => (c, Classification.Unclassified))
  else
    pass3 (pass2 (pass1 elim g) s).1 (pass2 (pass1 elim g) s).2

/-- The correct-position marking loop of `get_impossible_digits`:
positionally matching digits of guess and solution are both consumed. -/
def markCorrect : List Char → List Char → List (Option Char) × List (Option Char)
  | [], _ => ([], [])
  | _ :: _, [] => ([], [])
  | g :: gs, s :: ss =>
    let r := markCorrect gs ss
    if g = s then (none :: r.1, none :: r.2)
    else (some g :: r.1, some s :: r.2)

/-- The wrong-position (yellow) marking loop of `get_impossible_digits`:
each remaining guess digit consumes the first remaining equal solution
digit when one exists. -/
def markPresent : List (Option Char) → List (Option Char) → List (Option Char) × List (Option Char)
  | [], sol => ([], sol)
  | none :: gs, sol =>
    let r := markPresent gs sol
    (none :: r.1, r.2)
  | some g :: gs, sol =>
    match consume sol g with
    | some sol2 =>
      let r := markPresent gs sol2
      (none :: r.1, r.2)
    | none =>
      let r := markPresent gs sol
      (some g :: r.1, r.2)

/-- One iteration of the `get_impossible_digits` loop: the digits of a
single previous guess left unconsumed by both marking passes (empty when
either string does not normalize to exactly 6 characters). -/
def impossibleFromGuess (guess solution : List Char) : List Char :=
  let g := normalizeColor guess
  let s := normalizeColor solution
  if g.length ≠ 6 ∨ s.length ≠ 6 then []
  else
    let r1 := markCorrect g s
    (markPresent r1.1 r1.2).1.filterMap id

/-- Model of `get_impossible_digits(previous_guesses, solution)` in the source. -/
def get_impossible_digits (previous : List (List Char)) (solution : List Char) : Finset Char :=
  previous.foldl (fun acc guess => acc ∪ (impossibleFromGuess guess solution).toFinset) ∅

/-- Number of occurrences of the digit `d` in a character list. -/
def occCount (d : Char) : List Char → Nat
  | [] => 0
  | c :: cs => occCount d cs + (if c = d then 1 else 0)

/-- Number of not-yet-consumed occurrences of the digit `d` in a
partially consumed solution. -/
def someCount (d : Char) : List (Option Char) → Nat
  | [] => 0
  | o :: os => someCount d os + (if o = some d then 1 else 0)

/-- Number of Correct or Present classifications for the digit `d` in an
evaluation result. -/
def creditCount (d : Char) : List (Char × Classification) → Nat
  | [] => 0
  | (c, cl) :: rest =>
    creditCount d rest +
      (if c = d ∧ (cl = Classification.Correct ∨ cl = Classification.Present) then 1 else 0)

/-- Number of slots already finalized with Correct/Present credit for `d`. -/
def slotCreditCount (d : Char) : List Slot → Nat
  | [] => 0
  | Slot.done c cl :: rest =>
    slotCreditCount d rest +
      (if c = d ∧ (cl = Classification.Correct ∨ cl = Classification.Present) then 1 else 0)
  | Slot.active _ :: rest => slotCreditCount d rest

theorem consume_someCount {sol sol2 : List (Option Char)} {c : Char}
    (h : consume sol c = some sol2) (d : Char) :
    someCount d sol2 + (if c = d then 1 else 0) = someCount d sol := by
  induction sol generalizing sol2 with
  | nil => simp [consume] at h
  | cons o rest ih =>
    cases o with
    | some a =>
      by_cases hac : a = c
      · subst hac
        have hcons : consume (some a :: rest) a = some (none :: rest) := by
          simp [consume]
        rw [hcons, Option.some.injEq] at h
        subst h
        by_cases had : a = d <;> simp [someCount, had]
      · have hcons : consume (some a :: rest) c =
            (consume rest c).map (fun r => some a :: r) := by
          simp [consume, hac]
        rw [hcons] at h
        cases hc : consume rest c with
        | none => rw [hc] at h; simp at h
        | some r =>
          rw [hc] at h
          simp only [Option.map_some', Option.some.injEq] at h
          subst h
          have := ih hc
          by_cases had : a = d <;> simp [someCount, had] at * <;> omega
    | none =>
      have hcons : consume (none :: rest) c =
          (consume rest c).map (fun r => none :: r) := by
        simp [consume]
      rw [hcons] at h
      cases hc : consume rest c with
      | none => rw [hc] at h; simp at h
      | some r =>
        rw [hc] at h
        simp only [Option.map_some', Option.some.injEq] at h
        subst h
        have := ih hc
        simp [someCount] at *
        omega

theorem someCount_map_some (d : Char) (sol : List Char) :
    someCount d (sol.map some) = occCount d sol := by
  induction sol with
  | nil => simp [someCount, occCount]
  | cons c cs ih =>
    by_cases hcd : c = d <;> simp [someCount, occCount, hcd, ih]

theorem pass1_credit (elim : Finset Char) (g : List Char) (d : Char) :
    slotCreditCount d (pass1 elim g) = 0 := by
  induction g with
  | nil => simp [pass1, slotCreditCount]
  | cons c cs ih =>
    by_cases hc : c ∈ elim <;>
      simp only [pass1, List.map_cons, hc, ite_true, ite_false] <;>
      simp only [slotCreditCount] <;>
      simpa [pass1, slotCreditCount] using ih

theorem pass2_credit (slots : List Slot) (sol : List Char) (d : Char) :
    slotCreditCount d (pass2 slots sol).1 + someCount d (pass2 slots sol).2
      = slotCreditCount d slots + occCount d sol := by
  induction slots generalizing sol with
  | nil => simp [pass2, slotCreditCount, someCount_map_some, occCount]
  | cons s slots ih =>
    cases sol with
    | nil => simp [pass2, occCount, someCount]
    | cons c cs =>
      have hrec := ih cs
      cases s with
      | active g =>
        by_cases hg : g = c
        · subst hg
          have hstep : pass2 (Slot.active g :: slots) (g :: cs) =
              (Slot.done g Classification.Correct :: (pass2 slots cs).1,
                none :: (pass2 slots cs).2) := by
            simp [pass2]
          rw [hstep]
          simp only [slotCreditCount, someCount, occCount]
          by_cases hd : g = d <;> simp [hd] <;> omega
        · have hstep : pass2 (Slot.active g :: slots) (c :: cs) =
              (Slot.active g :: (pass2 slots cs).1,
                some c :: (pass2 slots cs).2) := by
            simp [pass2, hg]
          rw [hstep]
          simp only [slotCreditCount, someCount, occCount]
          by_cases hd : c = d <;> simp [hd] <;> omega
      | done g cl =>
        have hstep : pass2 (Slot.done g cl :: slots) (c :: cs) =
            (Slot.done g cl :: (pass2 slots cs).1,
              some c :: (pass2 slots cs).2) := by
          simp [pass2]
        rw [hstep]
        simp only [slotCreditCount, someCount, occCount]
        by_cases hd : c = d <;> simp [hd] <;> omega

theorem pass3_active_some {c : Char} {sol sol2 : List (Option Char)} (slots : List Slot)
    (h : consume sol c = some sol2) :
    pass3 (Slot.active c :: slots) sol =
      (c, Classification.Present) :: pass3 slots sol2 := by
  simp [pass3, h]

theorem pass3_active_none {c : Char} {sol : List (Option Char)} (slots : List Slot)
    (h : consume sol c = none) :
    pass3 (Slot.active c :: slots) sol =
      (c, Classification.Unclassified) :: pass3 slots sol := by
  simp [pass3, h]

theorem pass3_credit (slots : List Slot) (sol : List (Option Char)) (d : Char) :
    creditCount d (pass3 slots sol) ≤ slotCreditCount d slots + someCount d sol := by
  induction slots generalizing sol with
  | nil => simp [pass3, creditCount, slotCreditCount]
  | cons s slots ih =>
    cases s with
    | done c cl =>
      have := ih sol
      simp only [pass3, creditCount, slotCreditCount] at *
      omega
    | active c =>
      have hsc : slotCreditCount d (Slot.active c :: slots) = slotCreditCount d slots := rfl
      cases hc : consume sol c with
      | none =>
        have := ih sol
        rw [pass3_active_none slots hc, hsc]
        simp only [creditCount]
        simp
        omega
      | some sol2 =>
        have h1 := consume_someCount hc d
        have := ih sol2
        rw [pass3_active_some slots hc, hsc]
        simp only [creditCount]
        by_cases hcd : c = d <;> simp [hcd] at h1 ⊢ <;> omega

theorem pass2_fst_length (slots : List Slot) (sol : List Char) :
    (pass2 slots sol).1.length = slots.length := by
  induction slots generalizing sol with
  | nil => simp [pass2]
  | cons s slots ih =>
    cases sol with
    | nil => simp [pass2]
    | cons c cs =>
      cases s with
      | active g => by_cases hg : g = c <;> simp [pass2, hg, ih]
      | done g cl => simp [pass2, ih]

theorem pass3_length (slots : List Slot) (sol : List (Option Char)) :
    (pass3 slots sol).length = slots.length := by
  induction slots generalizing sol with
  | nil => simp [pass3]
  | cons s slots ih =>
    cases s with
    | done c cl => simp [pass3, ih]
    | active c =>
      cases hc : consume sol c with
      | none => simp [pass3, hc, ih]
      | some sol2 => simp [pass3, hc, ih]

/-! ## Color codec (`parse_ansi_colors`, `hex_to_ansi_bg`) -/

/-- The decimal digit character of `d` (`d < 10`), as produced by Python
string formatting of an integer. -/
def decDigitChar (d : Nat) : Char := Char.ofNat (48 + d)

/-- Decimal digits of `n`, most significant first, empty for `n = 0`;
the fuel argument bounds the recursion depth (`n` itself is always
enough fuel). -/
def decDigitsAux : Nat → Nat → List Char
  | 0, _ => []
  | fuel + 1, n =>
    if n = 0 then [] else decDigitsAux fuel (n / 10) ++ [decDigitChar (n % 10)]

/-- Python `str(n)` for a nonnegative integer, as in `f"{r}"`. -/
def pyDec (n : Nat) : List Char :=
  if n = 0 then ['0'] else decDigitsAux n n

/-- Python `int(s)` on a string of decimal digits. -/
def decVal (ds : List Char) : Nat :=
  ds.foldl (fun a c => 10 * a + (c.toNat - 48)) 0

/-- The uppercase hexadecimal digit character of `d` (`d < 16`). -/
def hexDigitChar (d : Nat) : Char :=
  if d < 10 then Char.ofNat (48 + d) else Char.ofNat (55 + d)

/-- Uppercase hexadecimal digits of `n`, most significant first, empty for
`n = 0`; fueled as in `decDigitsAux`. -/
def hexDigitsAux : Nat → Nat → List Char
  | 0, _ => []
  | fuel + 1, n =>
    if n = 0 then [] else hexDigitsAux fuel (n / 16) ++ [hexDigitChar (n % 16)]

/-- Python `f"{n:02X}"`: uppercase hexadecimal, zero-padded to width 2. -/
def pyHex2 (n : Nat) : List Char :=
  let ds := if n = 0 then ['0'] else hexDigitsAux n n
  if ds.length < 2 then '0' :: ds else ds

/-- The canonical `#RRGGBB` string built by `parse_ansi_colors` from the
three decoded components (`f"#{r:02X}{g:02X}{b:02X}"`). -/
def colorHex (p : Nat × Nat × Nat) : List Char :=
  '#' :: (pyHex2 p.1 ++ pyHex2 p.2.1 ++ pyHex2 p.2.2)

/-- Value of one hexadecimal digit character, as accepted by Python
`int(c, 16)`. -/
def hexVal (c : Char) : Option Nat :=
  if '0' ≤ c ∧ c ≤ '9' then some (c.toNat - 48)
  else if 'A' ≤ c ∧ c ≤ 'F' then some (c.toNat - 55)
  else if 'a' ≤ c ∧ c ≤ 'f' then some (c.toNat - 87)
  else none

def hexStrValAux : Nat → List Char → Option Nat
  | a, [] => some a
  | a, c :: cs =>
    match hexVal c with
    | some v => hexStrValAux (16 * a + v) cs
    | none => none

/-- Python `int(s, 16)`: fails on the empty string or on a non-hex
character (an exception in the source, `none` here). -/
def hexStrVal : List Char → Option Nat
  | [] => none
  | cs => hexStrValAux 0 cs

/-- Model of `hex_to_ansi_bg(hex_color)` in the source: strip leading `#`, parse the
three hex pairs, and produce the `ESC[48;2;R;G;Bm` escape sequence.
Python raises on unparsable input; modelled by `none`. -/
def hex_to_ansi_bg (s : List Char) : Option (List Char) :=
  let t := s.dropWhile (fun c => c == '#')
  match hexStrVal (t.take 2), hexStrVal ((t.drop 2).take 2), hexStrVal ((t.drop 4).take 2) with
  | some r, some g, some b =>
    some ('\x1b' :: '[' :: '4' :: '8' :: ';' :: '2' :: ';' ::
      (pyDec r ++ ';' :: (pyDec g ++ ';' :: (pyDec b ++ ['m']))))
  | _, _, _ => none

/-- A parameter separator of the color escape grammar: `;` or `:`. -/
def isSep (c : Char) : Bool := c == ';' || c == ':'

/-- Greedy `(\d+)`: the maximal nonempty run of decimal digits at the head
of the input, with the rest; fails when the head is not a digit. -/
def readNum (cs : List Char) : Option (List Char × List Char) :=
  let ds := cs.takeWhile Char.isDigit
  if ds.isEmpty then none else some (ds, cs.drop ds.length)

def expectSep : List Char → Option (List Char)
  | c :: rest => if isSep c then some rest else none
  | _ => none

def expectChar (c : Char) : List Char → Option (List Char)
  | d :: rest => if d = c then some rest else none
  | _ => none

/-- The common tail `[;:]2[;:](\d+)[;:](\d+)[;:](\d+)m` of both color
regexes, returning the decoded components and the unconsumed input. -/
def rgbTail (cs : List Char) : Option ((Nat × Nat × Nat) × List Char) := do
  let r1 ← expectSep cs
  let r2 ← expectChar '2' r1
  let r3 ← expectSep r2
  let (d1, r4) ← readNum r3
  let r5 ← expectSep r4
  let (d2, r6) ← readNum r5
  let r7 ← expectSep r6
  let (d3, r8) ← readNum r7
  let r9 ← expectChar 'm' r8
  pure ((decVal d1, decVal d2, decVal d3), r9)

/-- Match of the background pattern `\x1b\[48[;:]2[;:](\d+)[;:](\d+)[;:](\d+)m`
at the head of the input. -/
def matchBgAt (cs : List Char) : Option ((Nat × Nat × Nat) × List Char) :=
  match cs with
  | '\x1b' :: '[' :: '4' :: '8' :: rest => rgbTail rest
  | _ => none

theorem readNum_length {cs : List Char} {dr : List Char × List Char}
    (h : readNum cs = some dr) : dr.2.length < cs.length := by
  unfold readNum at h
  by_cases he : (cs.takeWhile Char.isDigit).isEmpty = true
  · rw [if_pos he] at h
    cases h
  · rw [if_neg he, Option.some.injEq] at h
    subst h
    have hlen := congrArg List.length (List.takeWhile_append_dropWhile Char.isDigit cs)
    rw [List.length_append] at hlen
    have hpos : 0 < (cs.takeWhile Char.isDigit).length := by
      cases hw : cs.takeWhile Char.isDigit with
      | nil => rw [hw] at he; simp at he
      | cons a l => simp [hw]
    simp only [List.length_drop]
    omega

/-- The suffixes reachable by iterating the star `(?:\d+;)*`, shallowest
first (zero iterations at the head, each further entry one more iteration);
fueled, `cs.length` being always sufficient fuel since every iteration
consumes at least two characters.  A greedy regex engine tries these
deepest first. -/
def starStopsAux : Nat → List Char → List (List Char)
  | 0, cs => [cs]
  | fuel + 1, cs =>
    cs ::
      (match readNum cs with
       | some dr =>
         match dr.2 with
         | ';' :: r2 => starStopsAux fuel r2
         | _ => []
       | none => [])

def starStops (cs : List Char) : List (List Char) := starStopsAux cs.length cs

/-- Match of the foreground pattern
`\x1b\[(?:\d+;)*38[;:]2[;:](\d+)[;:](\d+)[;:](\d+)m` at the head of the
input: the greedy star is tried deepest first. -/
def matchFgAt (cs : List Char) : Option ((Nat × Nat × Nat) × List Char) :=
  match cs with
  | '\x1b' :: '[' :: rest =>
    (starStops rest).reverse.findSome? (fun s =>
      match s with
      | '3' :: '8' :: t => rgbTail t
      | _ => none)
  | _ => none

/-- The `re.findall` scanning loop: at each position try the matcher; on success
emit the components and continue after the match, otherwise advance one
character.  Every successful match consumes at least one character, so the
initial fuel `text.length` never runs out. -/
def scanAux (m : List Char → Option ((Nat × Nat × Nat) × List Char)) :
    Nat → List Char → List (Nat × Nat × Nat)
  | 0, _ => []
  | _ + 1, [] => []
  | fuel + 1, c :: cs =>
    match m (c :: cs) with
    | some (x, rest) => x :: scanAux m fuel rest
    | none => scanAux m fuel cs

/-- The ordered component triples matched by `parse_ansi_colors`'s regex on
the chosen plane. -/
def ansiScan (bgOnly : Bool) (text : List Char) : List (Nat × Nat × Nat) :=
  if bgOnly then scanAux matchBgAt text.length text
  else scanAux matchFgAt text.length text

/-- Model of `parse_ansi_colors(text, background_only)` in the source. -/
def parse_ansi_colors (text : List Char) (bgOnly : Bool) : List (List Char) :=
  (ansiScan bgOnly text).map colorHex

/-- An uppercase hexadecimal digit character. -/
def isUpperHex (c : Char) : Bool :=
  ('0' ≤ c && c ≤ '9') || ('A' ≤ c && c ≤ 'F')

/-- The canonical color form: `#` followed by exactly 6 uppercase
hexadecimal digits. -/
def isCanonicalColor : List Char → Bool
  | '#' :: rest => rest.length == 6 && rest.all isUpperHex
  | _ => false

theorem decAux_zero (f : Nat) : decDigitsAux f 0 = [] := by
  cases f <;> simp [decDigitsAux]

theorem decDigitChar_toNat {d : Nat} (h : d < 10) : (decDigitChar d).toNat = 48 + d := by
  interval_cases d <;> decide

theorem decDigitChar_isDigit {d : Nat} (h : d < 10) : (decDigitChar d).isDigit = true := by
  interval_cases d <;> decide

theorem decVal_append (xs : List Char) (c : Char) :
    decVal (xs ++ [c]) = 10 * decVal xs + (c.toNat - 48) := by
  unfold decVal
  rw [List.foldl_append]
  rfl

theorem decAux_val : ∀ f n, n ≤ f → decVal (decDigitsAux f n) = n := by
  intro f
  induction f with
  | zero =>
    intro n h
    interval_cases n
    simp [decDigitsAux, decVal]
  | succ f ih =>
    intro n h
    by_cases h0 : n = 0
    · subst h0
      simp [decDigitsAux, decVal]
    · rw [show decDigitsAux (f + 1) n = decDigitsAux f (n / 10) ++ [decDigitChar (n % 10)] from
        by simp [decDigitsAux, h0]]
      rw [decVal_append, ih (n / 10) (by omega), decDigitChar_toNat (by omega)]
      omega

theorem decAux_digits : ∀ f n c, c ∈ decDigitsAux f n → c.isDigit = true := by
  intro f
  induction f with
  | zero => intro n c hc; simp [decDigitsAux] at hc
  | succ f ih =>
    intro n c hc
    by_cases h0 : n = 0
    · subst h0; simp [decDigitsAux] at hc
    · rw [show decDigitsAux (f + 1) n = decDigitsAux f (n / 10) ++ [decDigitChar (n % 10)] from
        by simp [decDigitsAux, h0]] at hc
      rcases List.mem_append.mp hc with hm | hm
      · exact ih (n / 10) c hm
      · simp at hm
        subst hm
        exact decDigitChar_isDigit (by omega)

theorem decVal_pyDec (n : Nat) : decVal (pyDec n) = n := by
  by_cases h0 : n = 0
  · subst h0; decide
  · unfold pyDec
    rw [if_neg h0]
    exact decAux_val n n le_rfl

theorem pyDec_digits (n : Nat) : ∀ c ∈ pyDec n, c.isDigit = true := by
  intro c hc
  by_cases h0 : n = 0
  · subst h0; simp [pyDec] at hc; subst hc; decide
  · unfold pyDec at hc
    rw [if_neg h0] at hc
    exact decAux_digits n n c hc

theorem pyDec_ne_nil (n : Nat) : pyDec n ≠ [] := by
  by_cases h0 : n = 0
  · subst h0; decide
  · unfold pyDec
    rw [if_neg h0]
    obtain ⟨f, rfl⟩ : ∃ f, n = f + 1 := ⟨n - 1, by omega⟩
    simp [decDigitsAux, h0]

theorem takeWhile_digit_run (ds : List Char) (x : Char) (rest : List Char)
    (hds : ∀ c ∈ ds, c.isDigit = true) (hx : x.isDigit = false) :
    List.takeWhile Char.isDigit (ds ++ x :: rest) = ds := by
  induction ds with
  | nil => simp [List.takeWhile_cons, hx]
  | cons a as ih =>
    have ha : a.isDigit = true := hds a (by simp)
    simp only [List.cons_append, List.takeWhile_cons, ha, ite_true]
    rw [ih (fun c hc => hds c (by simp [hc]))]

theorem readNum_exact (ds : List Char) (x : Char) (rest : List Char)
    (hds : ∀ c ∈ ds, c.isDigit = true) (hne : ds ≠ []) (hx : x.isDigit = false) :
    readNum (ds ++ x :: rest) = some (ds, x :: rest) := by
  unfold readNum
  rw [takeWhile_digit_run ds x rest hds hx]
  have hemp : ds.isEmpty = false := by
    cases ds with
    | nil => exact absurd rfl hne
    | cons a as => rfl
  simp only [hemp, Bool.false_eq_true, if_false, ite_false, Option.some.injEq]
  rw [List.drop_left ds (x :: rest)]

theorem expectSep_semi (t : List Char) : expectSep (';' :: t) = some t := rfl

theorem expectChar_self (c : Char) (t : List Char) : expectChar c (c :: t) = some t := by
  simp [expectChar]

theorem rgbTail_pyDec (r g b : Nat) (rest : List Char) :
    rgbTail (';' :: '2' :: ';' :: (pyDec r ++ ';' :: (pyDec g ++ ';' :: (pyDec b ++ 'm' :: rest))))
      = some ((r, g, b), rest) := by
  have h1 := readNum_exact (pyDec r) ';' (pyDec g ++ ';' :: (pyDec b ++ 'm' :: rest))
    (pyDec_digits r) (pyDec_ne_nil r) (by decide)
  have h2 := readNum_exact (pyDec g) ';' (pyDec b ++ 'm' :: rest)
    (pyDec_digits g) (pyDec_ne_nil g) (by decide)
  have h3 := readNum_exact (pyDec b) 'm' rest
    (pyDec_digits b) (pyDec_ne_nil b) (by decide)
  simp [rgbTail, expectSep_semi, expectChar_self, h1, h2, h3, decVal_pyDec,
    expectChar, expectSep, isSep]

theorem scanAux_nil (m : List Char → Option ((Nat × Nat × Nat) × List Char)) (f : Nat) :
    scanAux m f [] = [] := by
  cases f <;> simp [scanAux]

theorem scanAux_cons_match {m : List Char → Option ((Nat × Nat × Nat) × List Char)}
    {c : Char} {cs rest : List Char} {x : Nat × Nat × Nat} (f : Nat)
    (h : m (c :: cs) = some (x, rest)) :
    scanAux m (f + 1) (c :: cs) = x :: scanAux m f rest := by
  simp [scanAux, h]

theorem hexAux_zero (f : Nat) : hexDigitsAux f 0 = [] := by
  cases f <;> simp [hexDigitsAux]

theorem hexAux_small (f k : Nat) (h0 : 0 < k) (h16 : k < 16) (hf : k ≤ f) :
    hexDigitsAux f k = [hexDigitChar k] := by
  obtain ⟨f, rfl⟩ : ∃ m, f = m + 1 := ⟨f - 1, by omega⟩
  rw [show hexDigitsAux (f + 1) k = hexDigitsAux f (k / 16) ++ [hexDigitChar (k % 16)] from
    by simp [hexDigitsAux]; omega]
  rw [Nat.div_eq_of_lt h16, hexAux_zero, Nat.mod_eq_of_lt h16]
  rfl

theorem pyHex2_spec {n : Nat} (h : n < 256) :
    pyHex2 n = [hexDigitChar (n / 16), hexDigitChar (n % 16)] := by
  by_cases h0 : n = 0
  · subst h0; decide
  by_cases h16 : n < 16
  · unfold pyHex2
    rw [if_neg h0, hexAux_small n n (by omega) h16 le_rfl]
    rw [Nat.div_eq_of_lt h16, Nat.mod_eq_of_lt h16]
    simp
    decide
  · unfold pyHex2
    rw [if_neg h0]
    obtain ⟨f, rfl⟩ : ∃ m, n = m + 1 := ⟨n - 1, by omega⟩
    rw [show hexDigitsAux (f + 1) (f + 1) =
        hexDigitsAux f ((f + 1) / 16) ++ [hexDigitChar ((f + 1) % 16)] from
      by simp [hexDigitsAux]]
    rw [hexAux_small f ((f + 1) / 16) (by omega) (by omega) (by omega)]
    rfl

theorem hexVal_hexDigitChar {k : Nat} (h : k < 16) : hexVal (hexDigitChar k) = some k := by
  interval_cases k <;> decide

theorem hexDigitChar_beq_hash {k : Nat} (h : k < 16) : (hexDigitChar k == '#') = false := by
  interval_cases k <;> decide

theorem hexDigitChar_isUpperHex {k : Nat} (h : k < 16) : isUpperHex (hexDigitChar k) = true := by
  interval_cases k <;> decide

theorem hexStrVal_pair {x y : Char} {vx vy : Nat} (hx : hexVal x = some vx)
    (hy : hexVal y = some vy) : hexStrVal [x, y] = some (16 * vx + vy) := by
  simp [hexStrVal, hexStrValAux, hx, hy]

/-- The escape sequence produced by `hex_to_ansi_bg` for components
`r`, `g`, `b`. -/
def bgEscape (r g b : Nat) : List Char :=
  '\x1b' :: '[' :: '4' :: '8' :: ';' :: '2' :: ';' ::
    (pyDec r ++ ';' :: (pyDec g ++ ';' :: (pyDec b ++ ['m'])))

theorem hex_to_ansi_bg_colorHex {r g b : Nat} (hr : r < 256) (hg : g < 256) (hb : b < 256) :
    hex_to_ansi_bg (colorHex (r, g, b)) = some (bgEscape r g b) := by
  have er := pyHex2_spec hr
  have eg := pyHex2_spec hg
  have eb := pyHex2_spec hb
  have hcol : colorHex (r, g, b) =
      '#' :: hexDigitChar (r / 16) :: hexDigitChar (r % 16) ::
        hexDigitChar (g / 16) :: hexDigitChar (g % 16) ::
        hexDigitChar (b / 16) :: hexDigitChar (b % 16) :: [] := by
    simp [colorHex, er, eg, eb]
  rw [hcol]
  unfold hex_to_ansi_bg
  rw [show List.dropWhile (fun c => c == '#')
        ('#' :: hexDigitChar (r / 16) :: hexDigitChar (r % 16) ::
          hexDigitChar (g / 16) :: hexDigitChar (g % 16) ::
          hexDigitChar (b / 16) :: hexDigitChar (b % 16) :: []) =
      hexDigitChar (r / 16) :: hexDigitChar (r % 16) ::
        hexDigitChar (g / 16) :: hexDigitChar (g % 16) ::
        hexDigitChar (b / 16) :: hexDigitChar (b % 16) :: [] from
    by simp [List.dropWhile, hexDigitChar_beq_hash (by omega : r / 16 < 16)]]
  simp only [List.take, List.drop]
  rw [hexStrVal_pair (hexVal_hexDigitChar (by omega : r / 16 < 16))
      (hexVal_hexDigitChar (by omega : r % 16 < 16)),
    hexStrVal_pair (hexVal_hexDigitChar (by omega : g / 16 < 16))
      (hexVal_hexDigitChar (by omega : g % 16 < 16)),
    hexStrVal_pair (hexVal_hexDigitChar (by omega : b / 16 < 16))
      (hexVal_hexDigitChar (by omega : b % 16 < 16))]
  have hr2 : 16 * (r / 16) + r % 16 = r := by omega
  have hg2 : 16 * (g / 16) + g % 16 = g := by omega
  have hb2 : 16 * (b / 16) + b % 16 = b := by omega
  rw [hr2, hg2, hb2]
  rfl

theorem parse_bgEscape (r g b : Nat) :
    parse_ansi_colors (bgEscape r g b) true = [colorHex (r, g, b)] := by
  have hm : matchBgAt (bgEscape r g b) = some ((r, g, b), []) := by
    show rgbTail (';' :: '2' :: ';' :: (pyDec r ++ ';' :: (pyDec g ++ ';' :: (pyDec b ++ ['m']))))
      = some ((r, g, b), [])
    exact rgbTail_pyDec r g b []
  unfold parse_ansi_colors ansiScan
  rw [if_pos rfl]
  show (scanAux matchBgAt (bgEscape r g b).length (bgEscape r g b)).map colorHex = _
  rw [show (bgEscape r g b).length =
      ('[' :: '4' :: '8' :: ';' :: '2' :: ';' ::
        (pyDec r ++ ';' :: (pyDec g ++ ';' :: (pyDec b ++ ['m'])))).length + 1 from rfl]
  rw [show bgEscape r g b = '\x1b' ::
      ('[' :: '4' :: '8' :: ';' :: '2' :: ';' ::
        (pyDec r ++ ';' :: (pyDec g ++ ';' :: (pyDec b ++ ['m'])))) from rfl]
  rw [scanAux_cons_match _ hm, scanAux_nil]
  rfl

/-! ## Scoreboard extractor (`parse_scoreboard`) -/

/-- Python `content.split("\n")`: always returns one more piece than there
are newlines, pieces may be empty. -/
def splitLines : List Char → List (List Char)
  | [] => [[]]
  | c :: rest =>
    if c = '\n' then [] :: splitLines rest
    else
      match splitLines rest with
      | l :: ls => (c :: l) :: ls
      | [] => [[c]]

/-- Python substring containment `needle in hay`. -/
def containsStr : List Char → List Char → Bool
  | needle, [] => needle.isEmpty
  | needle, c :: t => needle.isPrefixOf (c :: t) || containsStr needle t

/-- Model of `re.search(r"day (\d+)", line)` in the source: the first position where
the literal `day ` is followed by at least one decimal digit; returns the
maximal digit run (group 1).  Fueled scan, one position per unit of fuel;
`line.length` is always sufficient. -/
def searchDayAux : Nat → List Char → Option (List Char)
  | 0, _ => none
  | fuel + 1, l =>
    match l with
    | 'd' :: 'a' :: 'y' :: ' ' :: rest =>
      let ds := rest.takeWhile Char.isDigit
      if ds.isEmpty then searchDayAux fuel ('a' :: 'y' :: ' ' :: rest) else some ds
    | _ :: rest => searchDayAux fuel rest
    | [] => none

def searchDay (l : List Char) : Option (List Char) := searchDayAux l.length l

/-- The middle dot character `·` appearing in the day line. -/
def midDot : Char := Char.ofNat 183

/-- The day-line condition of the source:
`"day" in line and ("·" in line or ">" in line)`. -/
def dayCond (line : List Char) : Bool :=
  containsStr ("day".toList) line &&
    (containsStr [midDot] line || containsStr ['>'] line)

/-- One iteration of the source's day loop: the day number extracted from a
line, when the condition holds and the regex matches. -/
def dayExtract (line : List Char) : Option (List Char) :=
  if dayCond line then searchDay line else none

/-- The day loop of `parse_scoreboard`: `day_number` is overwritten on every
line whose extraction succeeds, so the last successful line wins. -/
def dayOfLines (lines : List (List Char)) : Option (List Char) :=
  lines.foldl (fun acc line =>
    match dayExtract line with
    | some d => some d
    | none => acc) none

/-- The solution loop of `parse_scoreboard`: on each line containing
`dailyhex!`, the first decoded foreground color overwrites the solution. -/
def solutionOfLines (lines : List (List Char)) : Option (List Char) :=
  lines.foldl (fun acc line =>
    if containsStr ("dailyhex!".toList) line then
      match parse_ansi_colors line false with
      | c :: _ => some c
      | [] => acc
    else acc) none

/-- Model of `re.sub(r"\x1b\[[0-9;]*m", "", line)` in the source: remove every
escape sequence `ESC [ <digits-or-semicolons> m`, fueled leftmost scan. -/
def ansiStripAux : Nat → List Char → List Char
  | 0, l => l
  | fuel + 1, l =>
    match l with
    | '\x1b' :: '[' :: rest =>
      let ps := rest.takeWhile (fun c => c.isDigit || c == ';')
      match rest.drop ps.length with
      | 'm' :: rest2 => ansiStripAux fuel rest2
      | _ => '\x1b' :: ansiStripAux fuel ('[' :: rest)
    | c :: rest => c :: ansiStripAux fuel rest
    | [] => []

def ansiStrip (l : List Char) : List Char := ansiStripAux l.length l

/-- A Python `\w` word character (ASCII range). -/
def isWordChar (c : Char) : Bool := c.isAlphanum || c == '_'

/-- Model of `re.search(r"^\s*(\w+)\s+.*?(\d+)\s*$", clean_line)` in the source.
Because the pattern is anchored at both ends, a match exists exactly when:
after optional leading whitespace there is a maximal nonempty word run
followed by at least one whitespace character, and the remainder ends in a
nonempty digit run followed only by trailing whitespace.  Group 1 is the
word run; group 2 is that maximal trailing digit run. -/
def playerMatch (l : List Char) : Option (List Char × List Char) :=
  let l1 := l.dropWhile Char.isWhitespace
  let w := l1.takeWhile isWordChar
  if w.isEmpty then none
  else
    match l1.drop w.length with
    | c :: rest =>
      if c.isWhitespace then
        let t := rest.reverse.dropWhile Char.isWhitespace
        let ds := t.takeWhile Char.isDigit
        if ds.isEmpty then none else some (w, ds.reverse)
      else none
    | [] => none

/-- The header-line skip condition of the player loop. -/
def isPlayerSkip (line : List Char) : Bool :=
  line.all Char.isWhitespace || containsStr ("name".toList) line ||
    containsStr ("moves".toList) line || containsStr ("dailyhex".toList) line ||
    containsStr ("day".toList) line

/-- Python dict assignment `players[name] = v`: overwrite in place when the
key exists, append otherwise (insertion order preserved). -/
def upsert (ps : List (List Char × Nat × List (List Char))) (k : List Char)
    (v : Nat × List (List Char)) : List (List Char × Nat × List (List Char)) :=
  match ps with
  | [] => [(k, v)]
  | (k2, v2) :: rest => if k2 = k then (k, v) :: rest else (k2, v2) :: upsert rest k v

/-- The player loop of `parse_scoreboard`: non-header lines whose
escape-stripped text matches the player-row shape contribute
`{moves, guesses}` keyed by name, where the guesses are the line's decoded
background colors. -/
def playersOfLines (lines : List (List Char)) : List (List Char × Nat × List (List Char)) :=
  lines.foldl (fun acc line =>
    if isPlayerSkip line then acc
    else
      match playerMatch (ansiStrip line) with
      | some nmds => upsert acc nmds.1 (decVal nmds.2, parse_ansi_colors line true)
      | none => acc) []

/-- The result of `parse_scoreboard`: day, solution and the player map
(`title` is the constant `"dailyhex!"` and is omitted). -/
structure Snapshot where
  day : Option (List Char)
  solution : Option (List Char)
  players : List (List Char × Nat × List (List Char))
deriving DecidableEq, Repr

/-- Model of `parse_scoreboard(content)` in the source. -/
def parse_scoreboard (content : List Char) : Snapshot :=
  ⟨dayOfLines (splitLines content), solutionOfLines (splitLines content),
    playersOfLines (splitLines content)⟩

theorem dayOfLines_lastWins (ls : List (List Char)) (acc : Option (List Char)) :
    ls.foldl (fun a line =>
      match dayExtract line with
      | some d => some d
      | none => a) acc =
    match ls.reverse.findSome? dayExtract with
    | some d => some d
    | none => acc := by
  induction ls generalizing acc with
  | nil => simp
  | cons l ls ih =>
    rw [List.foldl_cons, ih, List.reverse_cons, List.findSome?_append]
    cases hfs : ls.reverse.findSome? dayExtract with
    | some d => simp [Option.or]
    | none =>
      cases hd : dayExtract l with
      | some d => simp [Option.or, List.findSome?, hd]
      | none => simp [Option.or, List.findSome?, hd]

/-- C6 counterexample: the claim says the first matching line wins; on an
input with two matching day lines (`day 1 >` and `day 2 >`), the code's day
loop never breaks, so `day_number` is overwritten and the last matching
line wins: the extracted day is `2`, not `1`. -/
theorem claim_c6_counterexample :
    (parse_scoreboard ("day 1 >\nday 2 >".toList)).day = some ['2'] ∧
    (parse_scoreboard ("day 1 >\nday 2 >".toList)).day ≠ some ['1'] := by decide

/-- C6 amended: for every input text, the snapshot's day value is the
integer extracted from the latest line whose extraction succeeds (last
match wins), and is absent when no line matches. -/
theorem claim_c6_amended (content : List Char) :
    (parse_scoreboard content).day = (splitLines content).reverse.findSome? dayExtract := by
  show dayOfLines (splitLines content) = _
  unfold dayOfLines
  rw [dayOfLines_lastWins]
  cases (splitLines content).reverse.findSome? dayExtract <;> rfl

/-- C7: the line `"  alice   ESC[48;2;10;20;30m  ESC[0m  7"` is recognized
as a player row: the snapshot maps `alice` to move count 7 with the single
guess `#0A141E` (and no day or solution is extracted). -/
theorem claim_c7_player_row :
    parse_scoreboard ("  alice   \x1b[48;2;10;20;30m  \x1b[0m  7".toList) =
      ⟨none, none, [(("alice".toList), (7, [("#0A141E".toList)]))]⟩ := by decide

/-- C5: for every 24-bit color in canonical `#RRGGBB` form, encoding it as a
background escape sequence and decoding that sequence on the background
plane yields exactly the one-element list containing the original color. -/
theorem claim_c5_roundtrip (r g b : Nat) (hr : r < 256) (hg : g < 256) (hb : b < 256) :
    (hex_to_ansi_bg (colorHex (r, g, b))).map (fun e => parse_ansi_colors e true)
      = some [colorHex (r, g, b)] := by
  rw [hex_to_ansi_bg_colorHex hr hg hb]
  rw [Option.map_some']
  rw [parse_bgEscape]

theorem claim_c5_roundtrip_witness :
    10 < 256 ∧
    (hex_to_ansi_bg (colorHex (10, 20, 30))).map (fun e => parse_ansi_colors e true)
      = some [colorHex (10, 20, 30)] :=
  ⟨by decide, claim_c5_roundtrip 10 20 30 (by decide) (by decide) (by decide)⟩

/-- C9: every color string produced by `parse_ansi_colors` whose three
matched decimal components are each at most 255 is `#` followed by exactly
6 uppercase hexadecimal digits. -/
theorem claim_c9_canonical (text : List Char) (bgOnly : Bool) (rgb : Nat × Nat × Nat)
    (hmem : rgb ∈ ansiScan bgOnly text)
    (hr : rgb.1 ≤ 255) (hg : rgb.2.1 ≤ 255) (hb : rgb.2.2 ≤ 255) :
    colorHex rgb ∈ parse_ansi_colors text bgOnly ∧
    isCanonicalColor (colorHex rgb) = true := by
  obtain ⟨r, g, b⟩ := rgb
  simp only at hr hg hb
  constructor
  · exact List.mem_map_of_mem colorHex hmem
  · have hcol : colorHex (r, g, b) =
        '#' :: hexDigitChar (r / 16) :: hexDigitChar (r % 16) ::
          hexDigitChar (g / 16) :: hexDigitChar (g % 16) ::
          hexDigitChar (b / 16) :: hexDigitChar (b % 16) :: [] := by
      simp [colorHex, pyHex2_spec (by omega : r < 256), pyHex2_spec (by omega : g < 256),
        pyHex2_spec (by omega : b < 256)]
    rw [hcol]
    simp [isCanonicalColor, List.all_cons,
      hexDigitChar_isUpperHex (by omega : r / 16 < 16),
      hexDigitChar_isUpperHex (by omega : r % 16 < 16),
      hexDigitChar_isUpperHex (by omega : g / 16 < 16),
      hexDigitChar_isUpperHex (by omega : g % 16 < 16),
      hexDigitChar_isUpperHex (by omega : b / 16 < 16),
      hexDigitChar_isUpperHex (by omega : b % 16 < 16)]

theorem claim_c9_canonical_witness :
    (10, 20, 30) ∈ ansiScan true ("\x1b[48;2;10;20;30m".toList) ∧
    (colorHex (10, 20, 30) ∈ parse_ansi_colors ("\x1b[48;2;10;20;30m".toList) true ∧
      isCanonicalColor (colorHex (10, 20, 30)) = true) :=
  ⟨by decide, claim_c9_canonical ("\x1b[48;2;10;20;30m".toList) true (10, 20, 30)
    (by decide) (by decide) (by decide) (by decide)⟩

/-- C1: the claim says eliminated digits are always absent from the solution;
evaluating the code on history `["#111111"]` and solution `"#112345"` returns
the set `{'1'}` even though `'1'` occurs in the solution, because the four
surplus `1`s of the guess receive no credit once the solution's two `1`s are
consumed.  This contradicts the source's own documentation ("impossible digit
(known to not be in solution)"). -/
theorem claim_c1_code_eval :
    get_impossible_digits [("#111111".toList)] ("#112345".toList) = {'1'} ∧
    '1' ∈ normalizeColor ("#112345".toList) := by decide

/-- C2: for guess and solution that each normalize to exactly 6 digits and
any eliminated set, the number of Correct plus Present classifications for a
digit value never exceeds its number of occurrences in the solution. -/
theorem claim_c2_multiset_bound (guess solution : List Char) (elim : Finset Char) (d : Char)
    (hg : (normalizeColor guess).length = 6) (hs : (normalizeColor solution).length = 6) :
    creditCount d (evaluate_guess guess solution elim)
      ≤ occCount d (normalizeColor solution) := by
  have hcond : ¬((normalizeColor guess).length ≠ 6 ∨ (normalizeColor solution).length ≠ 6) := by
    simp [hg, hs]
  simp only [evaluate_guess]
  rw [if_neg hcond]
  have h3 := pass3_credit (pass2 (pass1 elim (normalizeColor guess)) (normalizeColor solution)).1
    (pass2 (pass1 elim (normalizeColor guess)) (normalizeColor solution)).2 d
  have h2 := pass2_credit (pass1 elim (normalizeColor guess)) (normalizeColor solution) d
  have h1 := pass1_credit elim (normalizeColor guess) d
  omega

theorem claim_c2_multiset_bound_witness :
    (normalizeColor ("#112233".toList)).length = 6 ∧
    creditCount '1' (evaluate_guess ("#112233".toList) ("#112233".toList) ∅)
      ≤ occCount '1' (normalizeColor ("#112233".toList)) :=
  ⟨by decide, claim_c2_multiset_bound ("#112233".toList) ("#112233".toList) ∅ '1'
    (by decide) (by decide)⟩

/-- C3 counterexample: the claim says position 3 of evaluating `#AABBCC`
against `#AABBDC` is Unclassified; the code classifies position 3 Correct
(the solution digit at position 3 is `B`, matching the guess). -/
theorem claim_c3_counterexample :
    (evaluate_guess ("#AABBCC".toList) ("#AABBDC".toList) ∅)[3]? =
      some ('B', Classification.Correct) ∧
    (evaluate_guess ("#AABBCC".toList) ("#AABBDC".toList) ∅)[3]? ≠
      some ('B', Classification.Unclassified) := by decide

/-- C3 amended: with an empty eliminated set, evaluating guess `#AABBCC`
against solution `#AABBDC` classifies positions 0,1,2,3,5 Correct and
position 4 Unclassified. -/
theorem claim_c3_amended :
    evaluate_guess ("#AABBCC".toList) ("#AABBDC".toList) ∅ =
      [('A', Classification.Correct), ('A', Classification.Correct),
       ('B', Classification.Correct), ('B', Classification.Correct),
       ('C', Classification.Unclassified), ('C', Classification.Correct)] := by decide

/-- C4: with eliminated set `{'Z'}`, guess `#ZZ1234` against solution
`#112233` classifies positions 0 and 1 Eliminated, and positions 2-5 are
evaluated exactly as they would be with no eliminated digits (so an
eliminated position consumes no solution digit and the remaining positions
see the full solution multiset). -/
theorem claim_c4_elimination_pass :
    evaluate_guess ("#ZZ1234".toList) ("#112233".toList) {'Z'} =
      [('Z', Classification.Eliminated), ('Z', Classification.Eliminated),
       ('1', Classification.Present), ('2', Classification.Correct),
       ('3', Classification.Correct), ('4', Classification.Unclassified)] ∧
    (evaluate_guess ("#ZZ1234".toList) ("#112233".toList) {'Z'}).drop 2 =
      (evaluate_guess ("#ZZ1234".toList) ("#112233".toList) ∅).drop 2 := by decide

/-- C8 counterexample: the claim covers every pair that is not exactly 6
*hex digits*; the code only checks the length, so the 6-character non-hex
pair `GGGGGG`/`GGGGGG` is classified normally (position 0 Correct) instead
of being returned unclassified. -/
theorem claim_c8_counterexample :
    evaluate_guess ("#GGGGGG".toList) ("#GGGGGG".toList) ∅ ≠
      (normalizeColor ("#GGGGGG".toList)).map (fun c => (c, Classification.Unclassified)) ∧
    (evaluate_guess ("#GGGGGG".toList) ("#GGGGGG".toList) ∅)[0]? =
      some ('G', Classification.Correct) := by decide

/-- C8 amended: whenever either string does not have exactly 6 characters
after stripping leading `#` (and uppercasing), evaluation returns the
stripped, uppercased guess characters unclassified. -/
theorem claim_c8_amended (guess solution : List Char) (elim : Finset Char)
    (h : (normalizeColor guess).length ≠ 6 ∨ (normalizeColor solution).length ≠ 6) :
    evaluate_guess guess solution elim =
      (normalizeColor guess).map (fun c => (c, Classification.Unclassified)) := by
  simp only [evaluate_guess]
  rw [if_pos h]

theorem claim_c8_amended_witness :
    ((normalizeColor ("#AB".toList)).length ≠ 6 ∨
      (normalizeColor ("#112233".toList)).length ≠ 6) ∧
    evaluate_guess ("#AB".toList) ("#112233".toList) ∅ =
      (normalizeColor ("#AB".toList)).map (fun c => (c, Classification.Unclassified)) :=
  ⟨Or.inl (by decide),
    claim_c8_amended ("#AB".toList) ("#112233".toList) ∅ (Or.inl (by decide))⟩

/-- C10: evaluation is total and position-complete: the result has exactly
one entry per character of the `#`-stripped guess, and every entry carries
one of the four classifications. -/
theorem claim_c10_position_complete (guess solution : List Char) (elim : Finset Char) :
    (evaluate_guess guess solution elim).length = (stripHash guess).length ∧
    ∀ p ∈ evaluate_guess guess solution elim,
      p.2 = Classification.Correct ∨ p.2 = Classification.Present ∨
      p.2 = Classification.Eliminated ∨ p.2 = Classification.Unclassified := by
  constructor
  · have hlen : (normalizeColor guess).length = (stripHash guess).length := by
      simp [normalizeColor]
    by_cases h : (normalizeColor guess).length ≠ 6 ∨ (normalizeColor solution).length ≠ 6
    · simp only [evaluate_guess]
      rw [if_pos h]
      simpa using hlen
    · simp only [evaluate_guess]
      rw [if_neg h]
      rw [pass3_length, pass2_fst_length]
      simpa [pass1] using hlen
  · intro p _
    cases p.2 <;> simp
